import Mathlib

/-!
Verification development for the distributed degree-of-freedom numbering and
conforming interpolation subsystem declared in `src/fem/pfespace.hpp`
(`mfem::ParFiniteElementSpace` and its auxiliary conforming prolongation
operators).  The header in the excerpt carries only declarations and doc
comments; the behaviour of the member functions is therefore modelled from the
specification (spec.md) and from the behavioural doc comments present in the
header itself.  All arithmetic is modelled exactly over `ℚ`.
-/

namespace PFES

/-! ### Global Offset Builder (spec section 4.1, `GenerateGlobalOffsets`) -/

/-- Modelled from the spec: `ParFiniteElementSpace::GenerateGlobalOffsets`
(declared at src/fem/pfespace.hpp:112; its implementation is not part of the
excerpt).  Spec section 4.1 describes it as turning per-rank counts into "a
global exclusive-prefix-sum numbering (dof_offsets, tdof_offsets)".
`generateGlobalOffsets counts k` is the global starting offset of rank `k`:
the exclusive prefix sum of the per-rank counts. -/
def generateGlobalOffsets (counts : List Nat) (k : Nat) : Nat :=
  (counts.take k).sum

/-! ### Conforming space model (spec sections 3, 4.2, 4.4) -/

/-- Modelled from the spec: the conforming (empty dependency graph) parallel
DOF layout behind `ldof_group`, `ldof_ltdof`, `ldof_sign`
(src/fem/pfespace.hpp:51-69), flattened over all ranks.  `n` local DOFs are
partitioned into groups; each local DOF `i` carries the group id `grp i`, the
sign `sgn i` of its basis function (spec section 3, "Local DOF"), and refers
to the true DOF `tdofOf i` of its group.  `rep t` is the representative local
DOF of true DOF `t` held by the group's master (spec section 3, "True DOF":
exactly one true DOF per group, owned by the master); the master's locally
recorded sign is canonical (spec section 9), so `sgn (rep t) = 1`. -/
structure ConfSpace where
  n : Nat
  m : Nat
  tdofOf : Fin n → Fin m
  sgn : Fin n → ℚ
  grp : Fin n → Nat
  rep : Fin m → Fin n
  sgn_unit : ∀ i, sgn i = 1 ∨ sgn i = -1
  rep_tdof : ∀ t, tdofOf (rep t) = t
  rep_sgn : ∀ t, sgn (rep t) = 1
  grp_iff : ∀ i j, grp i = grp j ↔ tdofOf i = tdofOf j

/-- Modelled from the spec: the action of the assembled prolongation matrix
`P` (`Dof_TrueDof_Matrix`, src/fem/pfespace.hpp:326-328) on a true-DOF
vector in the conforming case.  Spec section 4.2: every member of a group
maps to the group's true DOF "with a coefficient of 1 scaled by its local
sign". -/
def prol (S : ConfSpace) (x : Fin S.m → ℚ) : Fin S.n → ℚ :=
  fun i => S.sgn i * x (S.tdofOf i)

/-- Modelled from the spec: the action of the restriction matrix `R`
(`GetRestrictionMatrix`, src/fem/pfespace.hpp:397-399) on a local-DOF vector
in the conforming case.  Spec section 4.4: `R` is the "pick one
representative row per true DOF" operator; the representative is the group
master's local DOF, whose sign is canonical. -/
def restr (S : ConfSpace) (y : Fin S.n → ℚ) : Fin S.m → ℚ :=
  fun t => y (S.rep t)

/-- Modelled from the spec: group consistency of a local-DOF vector (spec
section 8): "equal at every member of each group, accounting for sign". -/
def GroupConsistentC (S : ConfSpace) (y : Fin S.n → ℚ) : Prop :=
  ∀ i j, S.grp i = S.grp j → S.sgn j * y i = S.sgn i * y j

instance (S : ConfSpace) (y : Fin S.n → ℚ) : Decidable (GroupConsistentC S y) :=
  inferInstanceAs (Decidable (∀ i j, S.grp i = S.grp j → S.sgn j * y i = S.sgn i * y j))

/-! ### General (possibly non-conforming) space model (spec sections 3, 4.4) -/

/-- Modelled from the spec: the output of the Matrix Materializer (spec
section 4.4, `Build_Dof_TrueDof_Matrix`, src/fem/pfespace.hpp:162-163; its
implementation is not part of the excerpt) for a general, possibly
non-conforming, mesh.  Each local DOF `i` carries its Finalized Row
`row i` over true DOFs (spec section 3, "Finalized Row"); independent DOFs
carry a (degenerate) signed unit row, dependent DOFs carry their resolved
interpolation row.  `rep t` is the representative local DOF of true DOF `t`
(on the master rank), whose row is the unit row; `R` picks these
representative rows (spec section 4.4). -/
structure DofSpace where
  n : Nat
  m : Nat
  row : Fin n → Fin m → ℚ
  grp : Fin n → Nat
  sgn : Fin n → ℚ
  rep : Fin m → Fin n
  rep_row : ∀ t s, row (rep t) s = if s = t then 1 else 0

/-- Modelled from the spec: action of the assembled matrix `P` on a true-DOF
vector in the general case: each local DOF's value is its Finalized Row
applied to the true-DOF vector (spec section 4.4). -/
def prolNC (S : DofSpace) (x : Fin S.m → ℚ) : Fin S.n → ℚ :=
  fun i => ∑ t, S.row i t * x t

/-- Modelled from the spec: action of the restriction matrix `R` in the
general case; `R` picks one representative row per true DOF (spec
section 4.4). -/
def restrNC (S : DofSpace) (y : Fin S.n → ℚ) : Fin S.m → ℚ :=
  fun t => y (S.rep t)

/-- Modelled from the spec: group consistency of a local-DOF vector over a
general space (spec section 8): "equal at every member of each group,
accounting for sign". -/
def GroupConsistentNC (S : DofSpace) (y : Fin S.n → ℚ) : Prop :=
  ∀ i j, S.grp i = S.grp j → S.sgn j * y i = S.sgn i * y j

instance (S : DofSpace) (y : Fin S.n → ℚ) : Decidable (GroupConsistentNC S y) :=
  inferInstanceAs (Decidable (∀ i j, S.grp i = S.grp j → S.sgn j * y i = S.sgn i * y j))

/-! ### Implicit conforming operator (spec section 4.6,
`ConformingProlongationOperator` / `DeviceConformingProlongationOperator`,
src/fem/pfespace.hpp:450-520) -/

/-- Modelled from the spec: the buffer-exchange plan of the implicit
conforming operator (spec section 4.6), i.e. the index arrays `shr_ltdof`,
`ext_ldof`, `ltdof_ldof` of `DeviceConformingProlongationOperator`
(src/fem/pfespace.hpp:477-480).  Transfer `j` carries the owning rank's
value of true DOF `shr_ltdof j` into the non-owned ("external") local slot
`ext_ldof j`; the owned slot of true DOF `t` is `rep t`.  The plan is
faithful to the space: every transfer targets a slot of its own group's true
DOF, the targeted slots are exactly the non-owned local DOFs, and each is
written by exactly one transfer. -/
structure XPlan (S : ConfSpace) where
  k : Nat
  shr_ltdof : Fin k → Fin S.m
  ext_ldof : Fin k → Fin S.n
  shr_compat : ∀ j, S.tdofOf (ext_ldof j) = shr_ltdof j
  ext_not_owned : ∀ j, ext_ldof j ≠ S.rep (S.tdofOf (ext_ldof j))
  ext_inj : Function.Injective ext_ldof
  ext_cover : ∀ i : Fin S.n, i ≠ S.rep (S.tdofOf i) → ∃ j, ext_ldof j = i

/-- The transfers writing into local slot `i` (in a faithful plan there is at
most one). -/
def extSlots (S : ConfSpace) (pl : XPlan S) (i : Fin S.n) : Finset (Fin pl.k) :=
  Finset.univ.filter (fun j => pl.ext_ldof j = i)

/-- The transfers whose source is true DOF `t`. -/
def shrSlots (S : ConfSpace) (pl : XPlan S) (t : Fin S.m) : Finset (Fin pl.k) :=
  Finset.univ.filter (fun j => pl.shr_ltdof j = t)

/-- The local DOFs referring to true DOF `t` (the members of `t`'s group). -/
def tdofFiber (S : ConfSpace) (t : Fin S.m) : Finset (Fin S.n) :=
  Finset.univ.filter (fun i => S.tdofOf i = t)

/-- Modelled from the spec: the broadcast (prolongation) direction of the
implicit operator (spec section 4.6 steps (a)-(c)), composed from the
kernels documented at src/fem/pfespace.hpp:485-494: `BcastBeginCopy`
(`shr_buf[i] = src[shr_ltdof[i]]`), `BcastLocalCopy`
(`dst[ltdof_ldof[i]] = src[i]`) and `BcastEndCopy`
(`dst[ext_ldof[i]] = ext_buf[i]`), the received `ext_buf` being the
exchanged `shr_buf`.  All three kernels are plain, sign-free copies: an
owned slot receives its own true-DOF value by the local copy, and a
non-owned slot receives the mastered value of its group verbatim through
its transfer. -/
def implicitMult (S : ConfSpace) (pl : XPlan S) (x : Fin S.m → ℚ) : Fin S.n → ℚ :=
  fun i =>
    if extSlots S pl i = ∅ then x (S.tdofOf i)
    else ∑ j ∈ extSlots S pl i, x (pl.shr_ltdof j)

/-- Modelled from the spec: the reduce (transpose) direction of the implicit
operator (spec section 4.6 step (d)), composed from the kernels documented
at src/fem/pfespace.hpp:496-506: `ReduceBeginCopy`
(`ext_buf[i] = src[ext_ldof[i]]`), `ReduceLocalCopy`
(`dst[i] = src[ltdof_ldof[i]]`) and `ReduceEndAssemble`
(`dst[shr_ltdof[i]] += shr_buf[i]`): the owner's slot is copied, then every
received member contribution is summed on top, all as raw, unsigned
values. -/
def implicitMultT (S : ConfSpace) (pl : XPlan S) (y : Fin S.n → ℚ) : Fin S.m → ℚ :=
  fun t => y (S.rep t) + ∑ j ∈ shrSlots S pl t, y (pl.ext_ldof j)

/-- Modelled from the spec: the action of the transpose of the assembled
matrix `P` on a local-DOF vector: true DOF `t` accumulates the signed
contributions of all members of its group (columns of `P` are the true
DOFs, spec section 4.4). -/
def prolT (S : ConfSpace) (y : Fin S.n → ℚ) : Fin S.m → ℚ :=
  fun t => ∑ i ∈ tdofFiber S t, S.sgn i * y i

/-- Modelled from the spec: `ParFiniteElementSpace::DivideByGroupSize`
(src/fem/pfespace.hpp:340-341, "Scale a vector of true dofs"; its
implementation is not part of the excerpt).  Spec section 4.6: the reduced
value is "divided by group size if a simple arithmetic mean is the intended
semantics"; the group of true DOF `t` has `(tdofFiber S t).card`
members. -/
def divideByGroupSize (S : ConfSpace) (v : Fin S.m → ℚ) : Fin S.m → ℚ :=
  fun t => v t / ((tdofFiber S t).card : ℚ)

/-! ### True-DOF Assignment (spec section 4.2, `ConstructTrueDofs`) -/

/-- Modelled from the spec: the inputs of True-DOF Assignment
(`ConstructTrueDofs`, src/fem/pfespace.hpp:114-115; its implementation is
not part of the excerpt), flattened over all ranks: `rankOf i` is the rank
holding local DOF `i`, `grp i` its group id (spec section 3, "Rank/Group"),
`sgn i` its sign. -/
structure DofLayout where
  nr : Nat
  n : Nat
  rankOf : Fin n → Fin nr
  grp : Fin n → Nat
  sgn : Fin n → ℚ

/-- The local DOFs belonging to group `g`. -/
def groupDofs (L : DofLayout) (g : Nat) : Finset (Fin L.n) :=
  Finset.univ.filter (fun i => L.grp i = g)

/-- Modelled from the spec: local DOF `i` becomes a true DOF owned by its
rank exactly when its rank is the group's master, i.e. the lowest rank among
the group's members (spec section 3, "each group has a deterministic master
rank (e.g., lowest rank in the set)"; spec section 9 default policy). -/
def ownsTrueDof (L : DofLayout) (i : Fin L.n) : Prop :=
  ∀ j, L.grp j = L.grp i → L.rankOf i ≤ L.rankOf j

instance (L : DofLayout) : DecidablePred (ownsTrueDof L) :=
  fun i =>
    inferInstanceAs (Decidable (∀ j, L.grp j = L.grp i → L.rankOf i ≤ L.rankOf j))

/-- The true DOFs created for group `g`: its member DOFs held by the
group's master rank. -/
def groupTrueDofs (L : DofLayout) (g : Nat) : Finset (Fin L.n) :=
  Finset.univ.filter (fun i => L.grp i = g ∧ ownsTrueDof L i)

/-! ### Row Resolution Protocol (spec section 4.3,
`BuildParallelConformingInterpolation`, src/fem/pfespace.hpp:165-173) -/

/-- Modelled from the spec: the Dependency Graph consumed by the Row
Resolution Protocol (spec section 3, "Dependency Row"; the protocol's
implementation, `BuildParallelConformingInterpolation`, is not part of the
excerpt).  `dep i = none` marks an independent (true-DOF candidate) local
DOF; `dep i = some srcs` marks a dependent DOF expressed as the weighted
linear combination `srcs` of source DOFs. -/
structure DepGraph where
  N : Nat
  dep : Fin N → Option (List (Fin N × ℚ))

/-- A row is ready for finalization relative to the already-finalized set
`F` when it is independent or all its sources are finalized (spec
section 4.3 step 1: substitution succeeds exactly then). -/
def rowReady (g : DepGraph) (F : Finset (Fin g.N)) (i : Fin g.N) : Bool :=
  match g.dep i with
  | none => true
  | some srcs => srcs.all (fun p => decide (p.1 ∈ F))

/-- Modelled from the spec: the set of rows finalized after `k` synchronous
rounds of the Row Resolution Protocol (spec section 4.3).  Round 0
finalizes the independent rows; each later round finalizes every row whose
sources were all finalized in the previous round. -/
def finAfter (g : DepGraph) : Nat → Finset (Fin g.N)
  | 0 => Finset.univ.filter (fun i => g.dep i = none)
  | k + 1 =>
      finAfter g k ∪ Finset.univ.filter (fun i => rowReady g (finAfter g k) i)

/-- Modelled from the spec: running the protocol with the configured maximum
round count `cap` (spec section 4.3, failure semantics: "an implementation
must impose a maximum round count and fail fatally with a diagnosable
'dependency cycle detected' error rather than hang"). -/
def runProtocol (g : DepGraph) (cap : Nat) : Except String Unit :=
  if finAfter g cap = Finset.univ then Except.ok ()
  else Except.error "dependency cycle detected"

/-! ### Offset archiving across updates (spec sections 3 and 4.1,
`old_dof_offsets` / `UpdatesFinished`, src/fem/pfespace.hpp:65-66 and
434-438) -/

/-- The events touching the offset tables: a mesh update installing new
offsets, a read-only query by a consumer, and the caller-driven
`UpdatesFinished` signal. -/
inductive UpdEvent where
  | update (newOffsets : List Int)
  | query
  | updatesFinished
deriving DecidableEq

/-- The offset-table state: the current `dof_offsets` and the archived
previous offsets `old_dof_offsets` (empty when deleted, matching
`Array::DeleteAll`). -/
structure OffsetState where
  dof_offsets : List Int
  old_dof_offsets : List Int
deriving DecidableEq

/-- Modelled from the spec: the effect of each event on the offset tables.
An update archives the previous table ("Previous 'dof_offsets' (before
Update()), column partition of T", src/fem/pfespace.hpp:65; spec
section 4.1: "previous offset table is archived").  A query changes
nothing.  `UpdatesFinished` deletes the archive — the body is in the
excerpt: `old_dof_offsets.DeleteAll()` (src/fem/pfespace.hpp:434-438). -/
def stepUpd (s : OffsetState) : UpdEvent → OffsetState
  | UpdEvent.update o => { dof_offsets := o, old_dof_offsets := s.dof_offsets }
  | UpdEvent.query => s
  | UpdEvent.updatesFinished => { s with old_dof_offsets := [] }

/-- Run a sequence of offset events. -/
def runUpd (s : OffsetState) (evs : List UpdEvent) : OffsetState :=
  evs.foldl stepUpd s

/-! ### Ghost / face-neighbor exchange (spec section 4.5,
`ExchangeFaceNbrData` and the face-neighbor data,
src/fem/pfespace.hpp:204-216 and 401-410) -/

/-- Modelled from the spec: the static face-neighbor situation consumed by
the exchange (spec section 4.5; the implementation of
`ExchangeFaceNbrData` is not part of the excerpt).  `vals r e` is the value
rank `r` holds for its entity `e`; `pairs` lists the face-neighbor
relations `(requesting rank, owning rank, entity)` — one ghost slot per
entry, in the order of the ghost index space. -/
structure NbrWorld where
  nr : Nat
  vals : Fin nr → Nat → ℚ
  pairs : List (Fin nr × Fin nr × Nat)

/-- The per-mesh-state exchange cache: `none` until (or after invalidation
of) an exchange, `some` holding the ghost values; `comms` counts
communication rounds. -/
structure NbrState where
  cache : Option (List ℚ)
  comms : Nat

/-- Modelled from the spec: `ExchangeFaceNbrData`
(src/fem/pfespace.hpp:402): one send phase and one receive phase per mesh
state (spec section 4.5), filling the ghost index space with the owning
ranks' values and spending one communication round. -/
def exchangeFaceNbrData (w : NbrWorld) (s : NbrState) : NbrState :=
  { cache := some (w.pairs.map (fun p => w.vals p.2.1 p.2.2)),
    comms := s.comms + 1 }

/-- Modelled from the spec: reading one ghost value from the cached
face-neighbor data (the consumers `GetFaceNbrElementVDofs`,
`GetFaceNbrGlobalDofMap`, ..., src/fem/pfespace.hpp:404-410): a pure read
of the exchanged buffers. -/
def ghostValue (s : NbrState) (k : Nat) : Option ℚ :=
  s.cache.bind (fun c => c.get? k)

/-- Modelled from the spec: a query returns the cached ghost value and
leaves the state — in particular the communication count — unchanged
(spec section 4.5: "repeated queries do not re-trigger communication"). -/
def queryGhost (s : NbrState) (k : Nat) : Option ℚ × NbrState :=
  (ghostValue s k, s)

/-- Modelled from the spec: a mesh update invalidates the exchanged data
(spec section 3, "Ghost DOF Set": "Constructed once per mesh state,
invalidated on any mesh update"). -/
def invalidateOnMeshUpdate (s : NbrState) : NbrState :=
  { cache := none, comms := s.comms }

/-! ### Local true-DOF numbers (`GetLocalTDofNumber`,
src/fem/pfespace.hpp:379-381, and `ldof_ltdof`, src/fem/pfespace.hpp:53-54) -/

/-- Modelled from the spec: the ownership data behind `ldof_ltdof`: for
every local DOF whether the current rank owns it and, if so, its local true
DOF number, which is a valid index into the `ltdof_size` local true DOFs
(src/fem/pfespace.hpp:44-45 and 53-54). -/
structure TDofMap where
  ndofs : Nat
  ltdof_size : Nat
  owned : Fin ndofs → Bool
  ltdof : Fin ndofs → Nat
  ltdof_lt : ∀ i, owned i = true → ltdof i < ltdof_size

/-- Modelled from the spec: `GetLocalTDofNumber` per its header contract
(src/fem/pfespace.hpp:379-381: "If the given ldof is owned by the current
processor, return its local tdof number, otherwise return -1"; the
implementation is not part of the excerpt). -/
def getLocalTDofNumber (M : TDofMap) (i : Fin M.ndofs) : Int :=
  if M.owned i then (M.ltdof i : Int) else -1

/-! ### Concrete instances used by witnesses and counterexamples -/

/-- A 2-rank conforming space with one shared vertex carrying one scalar DOF
on each rank with matching signs: local DOF 0 lives on rank 0 (the master),
local DOF 1 on rank 1; both refer to the single true DOF 0. -/
@[reducible] def S2 : ConfSpace where
  n := 2
  m := 1
  tdofOf := fun _ => 0
  sgn := fun _ => 1
  grp := fun _ => 0
  rep := fun _ => 0
  sgn_unit := by decide
  rep_tdof := by decide
  rep_sgn := by decide
  grp_iff := by decide

/-- The exchange plan of `S2`: one transfer carrying the mastered value of
true DOF 0 into the non-owned slot 1 on rank 1. -/
@[reducible] def pl2 : XPlan S2 where
  k := 1
  shr_ltdof := fun _ => 0
  ext_ldof := fun _ => 1
  shr_compat := by decide
  ext_not_owned := by decide
  ext_inj := by decide
  ext_cover := by decide

/-- A 2-rank conforming space like `S2`, except that the non-owning member
carries a flipped basis sign: a real conforming case, since `GetDofSign`
(src/fem/pfespace.hpp:279-280) returns `ldof_sign` exactly when the space is
conforming and non-NURBS.  Its `P` (spec section 4.2) maps local DOF 1 with
coefficient `-1`. -/
@[reducible] def Sflip : ConfSpace where
  n := 2
  m := 1
  tdofOf := fun _ => 0
  sgn := ![1, -1]
  grp := fun _ => 0
  rep := fun _ => 0
  sgn_unit := by decide
  rep_tdof := by decide
  rep_sgn := by decide
  grp_iff := by decide

/-- The exchange plan of `Sflip`: one transfer carrying the mastered value
of true DOF 0 into the sign-flipped non-owned slot 1. -/
@[reducible] def plFlip : XPlan Sflip where
  k := 1
  shr_ltdof := fun _ => 0
  ext_ldof := fun _ => 1
  shr_compat := by decide
  ext_not_owned := by decide
  ext_inj := by decide
  ext_cover := by decide

/-- A non-conforming space with a hanging node: local DOF 0 is the
(representative) true DOF, local DOF 1 is dependent with the interpolation
row `(1/2)` from true DOF 0; every group is a singleton, so every vector is
group-consistent. -/
@[reducible] def ncHang : DofSpace where
  n := 2
  m := 1
  row := fun i _ => if i = 0 then 1 else 1 / 2
  grp := fun i => (i : Nat)
  sgn := fun _ => 1
  rep := fun _ => 0
  rep_row := by decide

/-- A 2-rank layout with one shared vertex carrying one scalar DOF on each
rank with matching signs: DOF 0 on rank 0, DOF 1 on rank 1, both in
group 0. -/
@[reducible] def sharedVertex2 : DofLayout where
  nr := 2
  n := 2
  rankOf := fun i => i
  grp := fun _ => 0
  sgn := fun _ => 1

/-- The spec's 3-level non-conforming chain (spec section 8): DOF 2 (fine)
depends on DOF 1 (mid), which depends on DOF 0 (coarse, a true DOF); the
maximum dependency-chain depth is 2. -/
@[reducible] def chain3 : DepGraph where
  N := 3
  dep := fun i =>
    if i = 1 then some [(0, 1)]
    else if i = 2 then some [(1, 1 / 2)]
    else none

/-- A chain-depth function for `chain3`. -/
def chainRank : Fin 3 → Nat := fun i => (i : Nat)

/-- The spec's artificial 2-rank dependency cycle (spec section 8): DOFs 0
and 1 each depend on the other. -/
@[reducible] def cyc2 : DepGraph where
  N := 2
  dep := fun i => if i = 0 then some [(1, 1)] else some [(0, 1)]

/-- A synthetic 4-partition face-neighbor world: rank `r` values entity `e`
at `10·r + e`; four face-neighbor relations across the partition
boundaries. -/
@[reducible] def w4 : NbrWorld where
  nr := 4
  vals := fun r e => (10 * (r : Nat) + e : ℚ)
  pairs := [(0, 1, 7), (1, 0, 7), (2, 3, 9), (3, 2, 9)]

/-- An initial, not-yet-exchanged face-neighbor state. -/
def nbr0 : NbrState where
  cache := none
  comms := 0

/-- A concrete ownership map: 3 local DOFs, DOFs 0 and 2 owned with true
DOF numbers 0 and 1, DOF 1 not owned. -/
@[reducible] def tmap3 : TDofMap where
  ndofs := 3
  ltdof_size := 2
  owned := fun i => i ≠ 1
  ltdof := fun i => if i = 0 then 0 else 1
  ltdof_lt := by decide

/-! ## Theorems -/

/-- Consecutive offsets differ by the corresponding declared count. -/
theorem genOffsets_succ (counts : List Nat) (k : Nat) (h : k < counts.length) :
    generateGlobalOffsets counts (k + 1)
      = generateGlobalOffsets counts k + counts.get ⟨k, h⟩ := by
  unfold generateGlobalOffsets
  exact List.sum_take_succ counts k h

/-- Offsets never decrease from one rank to the next. -/
theorem genOffsets_le_succ (counts : List Nat) (k : Nat) :
    generateGlobalOffsets counts k ≤ generateGlobalOffsets counts (k + 1) := by
  by_cases h : k < counts.length
  · rw [genOffsets_succ counts k h]
    exact Nat.le_add_right _ _
  · unfold generateGlobalOffsets
    rw [List.take_of_length_le (Nat.le_of_not_lt h),
      List.take_of_length_le (by omega)]

/-- The offset table is monotone in the rank. -/
theorem genOffsets_mono (counts : List Nat) :
    Monotone (generateGlobalOffsets counts) :=
  monotone_nat_of_le_succ (genOffsets_le_succ counts)

/-- Claim C3 (amended): for every run of the Global Offset Builder with
non-negative per-rank counts, consecutive offsets differ by the
corresponding rank's declared count, the offset table is monotone
non-decreasing in rank order, the final entry equals the global total, and
the table is strictly increasing whenever every declared count is positive
(with a zero count the two adjacent offsets coincide, so strictness cannot
hold unconditionally). -/
theorem c3_offsets_contract (counts : List Nat) :
    (∀ k : Fin counts.length,
        generateGlobalOffsets counts (k + 1)
          = generateGlobalOffsets counts k + counts.get k) ∧
    (∀ k l : Nat, k ≤ l →
        generateGlobalOffsets counts k ≤ generateGlobalOffsets counts l) ∧
    generateGlobalOffsets counts counts.length = counts.sum ∧
    ((∀ c ∈ counts, 0 < c) → ∀ k l : Nat, k < l → l ≤ counts.length →
        generateGlobalOffsets counts k < generateGlobalOffsets counts l) := by
  refine ⟨?_, ?_, ?_, ?_⟩
  · intro k
    exact genOffsets_succ counts k k.isLt
  · intro k l h
    exact genOffsets_mono counts h
  · unfold generateGlobalOffsets
    rw [List.take_of_length_le (le_refl _)]
  · intro hpos k l hkl hl
    have hk : k < counts.length := lt_of_lt_of_le hkl hl
    have h1 : generateGlobalOffsets counts k < generateGlobalOffsets counts (k + 1) := by
      rw [genOffsets_succ counts k hk]
      have hc : 0 < counts.get ⟨k, hk⟩ := hpos _ (counts.get_mem _ _)
      omega
    exact lt_of_lt_of_le h1 (genOffsets_mono counts hkl)

/-- Claim C3 counterexample: with the non-negative counts `[1, 0]` the
offsets are `0, 1, 1`, so the offset table is not strictly increasing in
rank order; strictness, as the claim states it, fails. -/
theorem c3_offsets_counterexample :
    ¬ (∀ (counts : List Nat) (k l : Nat), k < l → l ≤ counts.length →
        generateGlobalOffsets counts k < generateGlobalOffsets counts l) := by
  intro h
  exact absurd (h [1, 0] 1 2 (by decide) (by decide)) (by decide)

/-- Claim C3 witness: a concrete run with counts `2, 3, 1` — the second
difference equals the declared count `3`, the final offset equals the total
`6`, and the offsets are strictly increasing because all counts are
positive. -/
theorem c3_offsets_contract_witness :
    generateGlobalOffsets [2, 3, 1] 2 = generateGlobalOffsets [2, 3, 1] 1 + 3 ∧
    generateGlobalOffsets [2, 3, 1] 3 = 6 ∧
    generateGlobalOffsets [2, 3, 1] 1 < generateGlobalOffsets [2, 3, 1] 3 :=
  ⟨(c3_offsets_contract [2, 3, 1]).1 ⟨1, by decide⟩,
   (c3_offsets_contract [2, 3, 1]).2.2.1,
   (c3_offsets_contract [2, 3, 1]).2.2.2 (by decide) 1 3 (by decide) (by decide)⟩

/-- Claim C1: for every conforming mesh (empty dependency graph), composing
the restriction operator `R` with the prolongation operator `P` is exactly
the identity on the true-DOF space: for every true-DOF vector `x`,
`R (P x) = x`, with exact equality. -/
theorem c1_restriction_after_prolongation_identity
    (S : ConfSpace) (x : Fin S.m → ℚ) :
    restr S (prol S x) = x := by
  funext t
  simp [restr, prol, S.rep_tdof, S.rep_sgn]

/-- In the general (possibly non-conforming) model, `R` after `P` is the
identity on the true-DOF space: the representative row of each true DOF is
the unit row. -/
theorem restrNC_after_prolNC (S : DofSpace) (x : Fin S.m → ℚ) :
    restrNC S (prolNC S x) = x := by
  funext t
  simp only [restrNC, prolNC]
  rw [Finset.sum_congr rfl
    (fun s _ => by rw [S.rep_row t s, ite_mul, one_mul, zero_mul])]
  rw [Finset.sum_ite_eq' Finset.univ t x]
  simp

/-- Claim C6 counterexample: on the non-conforming space `ncHang` every
group is a singleton, so the vector `(3, 3)` is group-consistent; yet the
dependent DOF 1 carries the interpolation row `(1/2)`, so prolongation
after restriction maps the vector to `(3, 3/2)`, changing entry 1. -/
theorem c6_group_consistent_counterexample :
    GroupConsistentNC ncHang ![3, 3] ∧
    prolNC ncHang (restrNC ncHang ![3, 3]) 1 ≠ (3 : ℚ) := by
  constructor
  · simp [GroupConsistentNC, ncHang, Fin.forall_fin_two]
  · norm_num [prolNC, restrNC, ncHang, Fin.sum_univ_one]

/-- Claim C6 (amended): for every mesh, applying the prolongation after the
restriction returns a DOF vector unchanged when the vector satisfies all
interpolation constraints, i.e. lies in the range of `P`; on a conforming
mesh group-consistency (equal values at every member of each group,
accounting for sign) suffices.  On a non-conforming mesh group-consistency
alone is not enough (see the counterexample). -/
theorem c6_prolongation_restriction_roundtrip :
    (∀ (S : DofSpace) (x : Fin S.m → ℚ),
        prolNC S (restrNC S (prolNC S x)) = prolNC S x) ∧
    (∀ (S : ConfSpace) (y : Fin S.n → ℚ),
        GroupConsistentC S y → prol S (restr S y) = y) := by
  constructor
  · intro S x
    rw [restrNC_after_prolNC]
  · intro S y hy
    funext i
    have hg : S.grp i = S.grp (S.rep (S.tdofOf i)) := by
      rw [S.grp_iff, S.rep_tdof]
    have h := hy i (S.rep (S.tdofOf i)) hg
    rw [S.rep_sgn, one_mul] at h
    simp only [prol, restr]
    exact h.symm

/-- Claim C6 witness: on the conforming two-member space `S2` the vector
`(3, 3)` is group-consistent and the `P`-after-`R` round trip returns it
unchanged. -/
theorem c6_roundtrip_witness :
    GroupConsistentC S2 ![3, 3] ∧ prol S2 (restr S2 ![3, 3]) = ![3, 3] :=
  ⟨by simp [GroupConsistentC, S2, Fin.forall_fin_two],
   c6_prolongation_restriction_roundtrip.2 S2 ![3, 3]
     (by simp [GroupConsistentC, S2, Fin.forall_fin_two])⟩

/-- Claim C7: for every group (with at most one DOF per member rank),
exactly one representative true DOF is created, owned by the group's master
(minimal) rank; in particular, for the 2-rank partition `sharedVertex2`
sharing one vertex with one scalar DOF on each rank and matching signs, the
true-DOF count of the group is exactly 1 (not 2) and the true DOF is owned
by the lower rank 0. -/
theorem c7_one_true_dof_per_group :
    (∀ (L : DofLayout) (g : Nat),
        (∀ i j, L.grp i = L.grp j → L.rankOf i = L.rankOf j → i = j) →
        (groupDofs L g).Nonempty →
        ∃ i, groupTrueDofs L g = {i} ∧
          ∀ j ∈ groupDofs L g, L.rankOf i ≤ L.rankOf j) ∧
    (groupTrueDofs sharedVertex2 0 = {0} ∧
      (groupTrueDofs sharedVertex2 0).card = 1 ∧
      sharedVertex2.rankOf 0 = 0 ∧
      sharedVertex2.sgn 0 = sharedVertex2.sgn 1) := by
  constructor
  · intro L g hinj hne
    obtain ⟨i0, hi0mem, hi0min⟩ := Finset.exists_min_image (groupDofs L g) L.rankOf hne
    have hi0g : L.grp i0 = g := (Finset.mem_filter.mp hi0mem).2
    have howns : ownsTrueDof L i0 := by
      intro j hj
      exact hi0min j (Finset.mem_filter.mpr ⟨Finset.mem_univ j, by rw [hj, hi0g]⟩)
    refine ⟨i0, ?_, fun j hj => hi0min j hj⟩
    ext x
    simp only [groupTrueDofs, Finset.mem_filter, Finset.mem_univ, true_and,
      Finset.mem_singleton]
    constructor
    · rintro ⟨hxg, hxowns⟩
      have h1 : L.rankOf x ≤ L.rankOf i0 := hxowns i0 (by rw [hi0g, hxg])
      have h2 : L.rankOf i0 ≤ L.rankOf x := howns x (by rw [hxg, hi0g])
      exact hinj x i0 (by rw [hxg, hi0g]) (le_antisymm h1 h2)
    · rintro rfl
      exact ⟨hi0g, howns⟩
  · exact ⟨by decide, by decide, by decide, by decide⟩

/-- Claim C7 witness: the general statement applied to the concrete 2-rank
shared-vertex layout. -/
theorem c7_one_true_dof_witness :
    ∃ i, groupTrueDofs sharedVertex2 0 = {i} ∧
      ∀ j ∈ groupDofs sharedVertex2 0,
        sharedVertex2.rankOf i ≤ sharedVertex2.rankOf j :=
  c7_one_true_dof_per_group.1 sharedVertex2 0 (by decide) (by decide)

/-- Finalized rows stay finalized in the next round. -/
theorem finAfter_subset_succ (g : DepGraph) (k : Nat) :
    finAfter g k ⊆ finAfter g (k + 1) := by
  intro i hi
  exact Finset.mem_union_left _ hi

/-- Finalized rows stay finalized in all later rounds. -/
theorem finAfter_mono (g : DepGraph) {k l : Nat} (h : k ≤ l) :
    finAfter g k ⊆ finAfter g l := by
  induction l with
  | zero =>
    have hk : k = 0 := Nat.le_zero.mp h
    subst hk
    exact fun i hi => hi
  | succ l ih =>
    rcases Nat.lt_or_ge k (l + 1) with h1 | h2
    · exact (ih (Nat.lt_succ_iff.mp h1)).trans (finAfter_subset_succ g l)
    · have hk : k = l + 1 := le_antisymm h h2
      subst hk
      exact fun i hi => hi

/-- Each row is finalized no later than its dependency-chain depth: with a
depth function `r` that strictly decreases along dependencies and is at
least 1 on dependent rows, row `i` is finalized after `r i` rounds. -/
theorem mem_finAfter_of_rank (g : DepGraph) (r : Fin g.N → Nat)
    (hdec : ∀ i, ∀ p ∈ (g.dep i).getD [], r p.1 < r i)
    (hpos : ∀ i, g.dep i ≠ none → 1 ≤ r i) :
    ∀ k, ∀ i, r i ≤ k → i ∈ finAfter g (r i) := by
  intro k
  induction k with
  | zero =>
    intro i hi
    have h0 : r i = 0 := Nat.le_zero.mp hi
    have hnone : g.dep i = none := by
      by_contra hne
      have := hpos i hne
      omega
    rw [h0]
    simp [finAfter, hnone]
  | succ k ih =>
    intro i hi
    rcases Nat.lt_or_ge (r i) (k + 1) with h1 | h2
    · exact ih i (Nat.lt_succ_iff.mp h1)
    · have hri : r i = k + 1 := le_antisymm hi h2
      cases hdep : g.dep i with
      | none =>
        have h0 : i ∈ finAfter g 0 := by simp [finAfter, hdep]
        exact finAfter_mono g (Nat.zero_le _) h0
      | some srcs =>
        rw [hri]
        apply Finset.mem_union_right
        simp only [Finset.mem_filter, Finset.mem_univ, true_and]
        simp only [rowReady, hdep]
        rw [List.all_eq_true]
        intro p hp
        rw [decide_eq_true_iff]
        have hplt : r p.1 < r i := by
          have hd := hdec i
          rw [hdep] at hd
          exact hd p hp
        have hpmem : p.1 ∈ finAfter g (r p.1) := ih p.1 (by omega)
        exact finAfter_mono g (by omega) hpmem

/-- The members of a dependency cycle (a nonempty set of dependent rows each
of which has a source inside the set) are never finalized, in any round. -/
theorem cycle_never_finalized (g : DepGraph) (c : List (Fin g.N))
    (hc : ∀ x ∈ c, g.dep x ≠ none ∧ ∃ p ∈ (g.dep x).getD [], p.1 ∈ c) :
    ∀ k, ∀ x ∈ c, x ∉ finAfter g k := by
  intro k
  induction k with
  | zero =>
    intro x hx hmem
    simp only [finAfter, Finset.mem_filter] at hmem
    exact (hc x hx).1 hmem.2
  | succ k ih =>
    intro x hx hmem
    rcases Finset.mem_union.mp hmem with h1 | h2
    · exact ih x hx h1
    · simp only [Finset.mem_filter, Finset.mem_univ, true_and] at h2
      obtain ⟨hne, p, hp, hpc⟩ := hc x hx
      cases hdep : g.dep x with
      | none => exact hne hdep
      | some srcs =>
        simp only [rowReady, hdep] at h2
        rw [List.all_eq_true] at h2
        rw [hdep] at hp
        have hmem2 := h2 p hp
        rw [decide_eq_true_iff] at hmem2
        exact ih p.1 hpc hmem2

/-- Claim C2: for every valid dependency graph — witnessed by a chain-depth
function `r` that strictly decreases along dependencies, is at least 1 on
dependent rows and is bounded by the maximum chain depth `d` — the Row
Resolution Protocol finalizes every row within `d` rounds and reports
success; and for every dependency graph containing a cycle (a nonempty set
of dependent rows each having a source inside the set), the protocol run
with any configured maximum round count `cap` terminates and reports the
fatal, diagnosable "dependency cycle detected" error instead of hanging. -/
theorem c2_row_resolution_termination :
    (∀ (g : DepGraph) (r : Fin g.N → Nat) (d : Nat),
        (∀ i, ∀ p ∈ (g.dep i).getD [], r p.1 < r i) →
        (∀ i, g.dep i ≠ none → 1 ≤ r i) →
        (∀ i, r i ≤ d) →
        finAfter g d = Finset.univ ∧ runProtocol g d = Except.ok ()) ∧
    (∀ (g : DepGraph) (c : List (Fin g.N)) (cap : Nat), c ≠ [] →
        (∀ x ∈ c, g.dep x ≠ none ∧ ∃ p ∈ (g.dep x).getD [], p.1 ∈ c) →
        runProtocol g cap = Except.error "dependency cycle detected") := by
  constructor
  · intro g r d hdec hpos hbound
    have huniv : finAfter g d = Finset.univ := by
      apply Finset.eq_univ_iff_forall.mpr
      intro i
      have hmem : i ∈ finAfter g (r i) :=
        mem_finAfter_of_rank g r hdec hpos d i (hbound i)
      exact finAfter_mono g (hbound i) hmem
    refine ⟨huniv, ?_⟩
    unfold runProtocol
    rw [if_pos huniv]
  · intro g c cap hne hc
    have hnotall : finAfter g cap ≠ Finset.univ := by
      intro h
      cases c with
      | nil => exact hne rfl
      | cons x xs =>
        have hx : x ∉ finAfter g cap :=
          cycle_never_finalized g (x :: xs) hc cap x (by simp)
        rw [h] at hx
        exact hx (Finset.mem_univ x)
    unfold runProtocol
    rw [if_neg hnotall]

/-- Claim C2 witness: the protocol on the spec's 3-level chain (maximum
chain depth 2) succeeds within 2 rounds, and on the spec's artificial
2-DOF dependency cycle it reports the cycle-detection error at the
configured round cap 8. -/
theorem c2_row_resolution_witness :
    runProtocol chain3 2 = Except.ok () ∧
    runProtocol cyc2 8 = Except.error "dependency cycle detected" :=
  ⟨(c2_row_resolution_termination.1 chain3 chainRank 2 (by decide) (by decide)
      (by decide)).2,
   c2_row_resolution_termination.2 cyc2 [0, 1] 8 (by decide) (by decide)⟩

/-- In a faithful exchange plan, the transfers targeting a targeted slot
form a singleton. -/
theorem extSlots_eq_singleton (S : ConfSpace) (pl : XPlan S) {j : Fin pl.k}
    {i : Fin S.n} (hj : pl.ext_ldof j = i) :
    extSlots S pl i = {j} := by
  apply Finset.eq_singleton_iff_unique_mem.mpr
  constructor
  · simp [extSlots, hj]
  · intro x hx
    simp only [extSlots, Finset.mem_filter, Finset.mem_univ, true_and] at hx
    exact pl.ext_inj (by rw [hx, hj])

/-- The broadcast kernels deliver to every local slot the value of its
group's true DOF, as a verbatim copy. -/
theorem implicitMult_copies (S : ConfSpace) (pl : XPlan S) (x : Fin S.m → ℚ)
    (i : Fin S.n) : implicitMult S pl x i = x (S.tdofOf i) := by
  unfold implicitMult
  by_cases h : extSlots S pl i = ∅
  · rw [if_pos h]
  · rw [if_neg h]
    obtain ⟨j, hj⟩ := Finset.nonempty_iff_ne_empty.mpr h
    have hjx : pl.ext_ldof j = i := by
      simpa [extSlots] using hj
    rw [extSlots_eq_singleton S pl hjx, Finset.sum_singleton,
      ← pl.shr_compat j, hjx]

/-- The reduce kernels accumulate onto each true DOF the raw sum of the
contributions of all the members of its group. -/
theorem implicitMultT_sums (S : ConfSpace) (pl : XPlan S) (y : Fin S.n → ℚ)
    (t : Fin S.m) : implicitMultT S pl y t = ∑ i ∈ tdofFiber S t, y i := by
  unfold implicitMultT
  have hrepmem : S.rep t ∈ tdofFiber S t := by
    simp [tdofFiber, S.rep_tdof]
  have hbij :
      ∑ j ∈ shrSlots S pl t, y (pl.ext_ldof j)
        = ∑ i ∈ (tdofFiber S t).erase (S.rep t), y i := by
    apply Finset.sum_bij (fun j _ => pl.ext_ldof j)
    · intro j hj
      simp only [shrSlots, Finset.mem_filter, Finset.mem_univ, true_and] at hj
      apply Finset.mem_erase.mpr
      refine ⟨?_, by simp [tdofFiber, pl.shr_compat j, hj]⟩
      have hno := pl.ext_not_owned j
      rw [pl.shr_compat j, hj] at hno
      exact hno
    · intro a ha b hb hab
      exact pl.ext_inj hab
    · intro b hb
      rw [Finset.mem_erase] at hb
      obtain ⟨hbne, hbf⟩ := hb
      simp only [tdofFiber, Finset.mem_filter, Finset.mem_univ, true_and] at hbf
      have hbnotrep : b ≠ S.rep (S.tdofOf b) := by rw [hbf]; exact hbne
      obtain ⟨j, hj⟩ := pl.ext_cover b hbnotrep
      refine ⟨j, ?_, hj⟩
      simp only [shrSlots, Finset.mem_filter, Finset.mem_univ, true_and]
      rw [← pl.shr_compat j, hj, hbf]
    · intro j hj
      rfl
  rw [hbij]
  exact Finset.add_sum_erase (tdofFiber S t) y hrepmem

/-- Claim C4 counterexample: on the conforming space `Sflip`, whose
non-owning member has basis sign `-1`, the assembled matrix `P` maps the
true-DOF vector `(5)` to `-5` at slot 1 (spec section 4.2: coefficient 1
scaled by the local sign), while the implicit broadcast kernels, being
plain copies, deliver `5` there: the implicit operator and the explicit
matrix disagree at a sign-flipped slot of a conforming mesh. -/
theorem c4_sign_flip_counterexample :
    implicitMult Sflip plFlip ![5] 1 = 5 ∧
    prol Sflip ![5] 1 = -5 ∧
    implicitMult Sflip plFlip ![5] 1 ≠ prol Sflip ![5] 1 := by
  have hs : extSlots Sflip plFlip 1 = {0} :=
    extSlots_eq_singleton Sflip plFlip rfl
  have h1 : implicitMult Sflip plFlip ![5] 1 = 5 := by
    unfold implicitMult
    rw [if_neg (by rw [hs]; exact Finset.singleton_ne_empty 0), hs,
      Finset.sum_singleton]
    rfl
  have h2 : prol Sflip ![5] 1 = -5 := by
    norm_num [prol, Sflip]
  refine ⟨h1, h2, ?_⟩
  rw [h1, h2]
  norm_num

/-- Claim C4 (amended): for every conforming mesh all of whose local basis
signs are canonical (+1), and every input vector, the implicit
buffer-exchange operator produces exactly the same result as multiplying by
the explicitly assembled matrix: the broadcast direction equals the action
of `P` and the reduce direction equals the action of `P` transposed, with
exact equality (the model computes in exact rational arithmetic, where
bit-for-bit identity and identity up to round-off coincide).  At a
sign-flipped member the plain-copy kernels deviate from the signed matrix
(see the counterexample). -/
theorem c4_implicit_matches_explicit (S : ConfSpace) (pl : XPlan S)
    (x : Fin S.m → ℚ) (y : Fin S.n → ℚ) (hsgn : ∀ i, S.sgn i = 1) :
    implicitMult S pl x = prol S x ∧ implicitMultT S pl y = prolT S y := by
  constructor
  · funext i
    rw [implicitMult_copies S pl x i]
    unfold prol
    rw [hsgn i, one_mul]
  · funext t
    rw [implicitMultT_sums S pl y t]
    unfold prolT
    exact (Finset.sum_congr rfl (fun i _ => by rw [hsgn i, one_mul])).symm

/-- Claim C4 witness: the amended equivalence instantiated on the
all-canonical-signs 2-rank shared vertex `S2` with its one-transfer plan
`pl2`. -/
theorem c4_implicit_matches_witness :
    implicitMult S2 pl2 ![5] = prol S2 ![5] ∧
    implicitMultT S2 pl2 ![2, 4] = prolT S2 ![2, 4] :=
  c4_implicit_matches_explicit S2 pl2 ![5] ![2, 4] (by decide)

/-- Claim C5 counterexample: on the 2-rank shared vertex of `S2` the two
members contribute `2` and `4`; the reduce (restriction) direction of the
implicit operator leaves the mastered value at their sum `6`
(`ReduceEndAssemble` accumulates with `+=`, src/fem/pfespace.hpp:504-506),
not at their arithmetic mean `3` — the mean is produced only by the
separate, caller-invoked `DivideByGroupSize`. -/
theorem c5_mean_counterexample :
    implicitMultT S2 pl2 ![2, 4] 0 = 6 ∧
    ((![2, 4] : Fin 2 → ℚ) 0 + (![2, 4] : Fin 2 → ℚ) 1) / 2 = 3 ∧
    implicitMultT S2 pl2 ![2, 4] 0
      ≠ ((![2, 4] : Fin 2 → ℚ) 0 + (![2, 4] : Fin 2 → ℚ) 1) / 2 := by
  have h6 : implicitMultT S2 pl2 ![2, 4] 0 = 6 := by
    norm_num [implicitMultT, shrSlots, Finset.sum_filter, Fin.sum_univ_one,
      S2, pl2]
  refine ⟨h6, by norm_num, ?_⟩
  rw [h6]
  norm_num

/-- Claim C5 (amended): for every shared group, the reduce (restriction)
direction of the implicit operator leaves the owning rank's mastered value
equal to the SUM of all group members' contributed values; the arithmetic
mean is obtained only after the separate, caller-invoked
`DivideByGroupSize` scaling; and the prolongation (broadcast) direction
copies the owner's value verbatim with no averaging. -/
theorem c5_reduce_sums_divide_averages_bcast_copies (S : ConfSpace)
    (pl : XPlan S) (x : Fin S.m → ℚ) (y : Fin S.n → ℚ) :
    (∀ t, implicitMultT S pl y t = ∑ i ∈ tdofFiber S t, y i) ∧
    (∀ t, divideByGroupSize S (implicitMultT S pl y) t
        = (∑ i ∈ tdofFiber S t, y i) / ((tdofFiber S t).card : ℚ)) ∧
    (∀ i, implicitMult S pl x i = x (S.tdofOf i)) := by
  refine ⟨fun t => implicitMultT_sums S pl y t, ?_,
    fun i => implicitMult_copies S pl x i⟩
  intro t
  unfold divideByGroupSize
  rw [implicitMultT_sums S pl y t]

/-- A sequence of pure queries leaves the offset state unchanged. -/
theorem runUpd_queries (st : OffsetState) (l : List UpdEvent)
    (hl : ∀ e ∈ l, e = UpdEvent.query) :
    runUpd st l = st := by
  induction l generalizing st with
  | nil => rfl
  | cons e tl ih =>
    have he : e = UpdEvent.query := hl e (by simp)
    subst he
    exact ih st (fun e' he' => hl e' (by simp [he']))

/-- Claim C8: an offset update archives the previous `dof_offsets` table
into `old_dof_offsets`; the archive is retained (observable) across any
subsequent sequence of read-only queries — it is not discarded
automatically — and it is deleted exactly by the explicit, caller-driven
`UpdatesFinished` event. -/
theorem c8_old_offsets_archived (s : OffsetState) (o : List Int)
    (evs : List UpdEvent) (h : ∀ e ∈ evs, e = UpdEvent.query) :
    (stepUpd s (UpdEvent.update o)).old_dof_offsets = s.dof_offsets ∧
    (runUpd (stepUpd s (UpdEvent.update o)) evs).old_dof_offsets
      = s.dof_offsets ∧
    (stepUpd (runUpd (stepUpd s (UpdEvent.update o)) evs)
        UpdEvent.updatesFinished).old_dof_offsets = [] := by
  refine ⟨rfl, ?_, ?_⟩
  · rw [runUpd_queries _ evs h]
    rfl
  · rw [runUpd_queries _ evs h]
    rfl

/-- Claim C8 witness: a concrete update from offsets `[0, 5]` to `[0, 7]`
followed by two queries and the `UpdatesFinished` signal. -/
theorem c8_old_offsets_witness :
    (stepUpd ⟨[0, 5], []⟩ (UpdEvent.update [0, 7])).old_dof_offsets = [0, 5] ∧
    (runUpd (stepUpd ⟨[0, 5], []⟩ (UpdEvent.update [0, 7]))
        [UpdEvent.query, UpdEvent.query]).old_dof_offsets = [0, 5] ∧
    (stepUpd (runUpd (stepUpd ⟨[0, 5], []⟩ (UpdEvent.update [0, 7]))
          [UpdEvent.query, UpdEvent.query])
        UpdEvent.updatesFinished).old_dof_offsets = [] :=
  c8_old_offsets_archived ⟨[0, 5], []⟩ [0, 7]
    [UpdEvent.query, UpdEvent.query] (by decide)

/-- Claim C9: after the face-neighbor exchange, every ghost DOF slot holds
exactly the value held by the owning rank for the same mesh entity; a query
returns the cached value and leaves the state (in particular the
communication count) unchanged, so any sequence of repeated queries
triggers no further communication; and the data stays valid until a mesh
update invalidates the cache. -/
theorem c9_ghost_exchange_contract (w : NbrWorld) (s : NbrState) (idx : Nat)
    (p : Fin w.nr × Fin w.nr × Nat) (hp : w.pairs.get? idx = some p) :
    ghostValue (exchangeFaceNbrData w s) idx = some (w.vals p.2.1 p.2.2) ∧
    (∀ k, queryGhost (exchangeFaceNbrData w s) k
        = (ghostValue (exchangeFaceNbrData w s) k, exchangeFaceNbrData w s)) ∧
    (∀ ks : List Nat,
        ks.foldl (fun st k => (queryGhost st k).2) (exchangeFaceNbrData w s)
          = exchangeFaceNbrData w s) ∧
    (invalidateOnMeshUpdate (exchangeFaceNbrData w s)).cache = none := by
  refine ⟨?_, fun k => rfl, ?_, rfl⟩
  · show (w.pairs.map (fun q => w.vals q.2.1 q.2.2)).get? idx
      = some (w.vals p.2.1 p.2.2)
    rw [List.get?_map, hp]
    rfl
  · intro ks
    induction ks with
    | nil => rfl
    | cons k tl ih => exact ih

/-- Claim C9 witness: the 4-partition world `w4`: ghost slot 0 of rank 0
receives the value `17` held by its owner, rank 1, for entity 7; three
repeated queries leave the exchanged state untouched; a mesh update clears
the cache. -/
theorem c9_ghost_exchange_witness :
    ghostValue (exchangeFaceNbrData w4 nbr0) 0 = some (w4.vals 1 7) ∧
    queryGhost (exchangeFaceNbrData w4 nbr0) 0
      = (ghostValue (exchangeFaceNbrData w4 nbr0) 0,
         exchangeFaceNbrData w4 nbr0) ∧
    [0, 1, 2].foldl (fun st k => (queryGhost st k).2)
        (exchangeFaceNbrData w4 nbr0)
      = exchangeFaceNbrData w4 nbr0 ∧
    (invalidateOnMeshUpdate (exchangeFaceNbrData w4 nbr0)).cache = none :=
  ⟨(c9_ghost_exchange_contract w4 nbr0 0 (0, 1, 7) rfl).1,
   (c9_ghost_exchange_contract w4 nbr0 0 (0, 1, 7) rfl).2.1 0,
   (c9_ghost_exchange_contract w4 nbr0 0 (0, 1, 7) rfl).2.2.1 [0, 1, 2],
   (c9_ghost_exchange_contract w4 nbr0 0 (0, 1, 7) rfl).2.2.2⟩

/-- Claim C10: for every local DOF, `GetLocalTDofNumber` returns the DOF's
local true-DOF number — a valid index, at least 0 and below `ltdof_size` —
when the current process owns the DOF, and returns the distinguished
sentinel `-1`, which is never a valid true-DOF index, when it does not. -/
theorem c10_local_tdof_number (M : TDofMap) (i : Fin M.ndofs) :
    (M.owned i = true →
        getLocalTDofNumber M i = (M.ltdof i : Int) ∧
        0 ≤ getLocalTDofNumber M i ∧
        getLocalTDofNumber M i < (M.ltdof_size : Int)) ∧
    (M.owned i = false →
        getLocalTDofNumber M i = -1 ∧
        ∀ t : Nat, t < M.ltdof_size → getLocalTDofNumber M i ≠ (t : Int)) := by
  constructor
  · intro h
    unfold getLocalTDofNumber
    rw [if_pos h]
    refine ⟨rfl, Int.ofNat_nonneg _, ?_⟩
    exact_mod_cast M.ltdof_lt i h
  · intro h
    unfold getLocalTDofNumber
    rw [if_neg (by simp [h])]
    exact ⟨rfl, fun t ht => by omega⟩

/-- Claim C10 witness: on the concrete map `tmap3`, the owned DOF 2 gets
its true-DOF number 1 and the non-owned DOF 1 gets `-1`. -/
theorem c10_local_tdof_witness :
    getLocalTDofNumber tmap3 2 = 1 ∧ getLocalTDofNumber tmap3 1 = -1 :=
  ⟨((c10_local_tdof_number tmap3 2).1 (by decide)).1,
   ((c10_local_tdof_number tmap3 1).2 (by decide)).1⟩

end PFES
